import Mathlib

/-!
# Verification of the SNOMED-CT DuckDB loader (`python-duckdb/snomed-duckdb.py`)

A shallow embedding of the loader's release-file resolution, table-name
normalization, load-plan ordering and load-orchestration logic, together with
proofs about the spec's claims for that code.

Conventions of the embedding:
* Strings are modelled as `List Char`.  Character classes (`\w`, `\d`,
  `[a-z-]`, `[A-Z]`) are modelled over ASCII, matching the characters the
  RF2 naming convention uses; `str.lower()` is modelled with `Char.toLower`
  (ASCII case folding), which agrees with Python on ASCII input.
* The Python regular expressions are embedded as terms of a small regex AST
  `RE` (the pattern has no unbounded repetition other than `\w+`, and all
  other quantifiers are bounded character-class repetitions, so the AST
  needs no general Kleene star).  `mrun` is a backtracking matcher over
  that AST with Python's priority order (alternation left first, greedy
  quantifiers longest first), with capture groups; `MemG` is the
  declarative semantics.  `^...$` anchoring is modelled by requiring the
  whole input to be consumed.
* Fallible Python code (the `TypeError` that `extract_strategy` raises when
  it concatenates `None`) is modelled with `Option`.
* The effectful orchestrator (`__main__`, `DuckDBClient`,
  `validate_targetcomponentid`) is modelled as a pure function from an
  environment of collaborator results to the list of observable events it
  performs, in program order.
-/

/-! ## Character classes (from the regex character classes in the source) -/

/-- `\w` (word character), over ASCII: letters, digits, underscore. -/
def isWordChar (c : Char) : Bool := c.isAlphanum || c = '_'

/-- `[a-z-]`: lowercase ASCII letter or hyphen (the language-code class). -/
def isLangChar (c : Char) : Bool := c.isLower || c = '-'

/-! ## `ReleaseType` (source lines 70-76) -/

/-- The `ReleaseType` enum: `FULL = "Full"`, `SNAPSHOT = "Snapshot"`,
`DELTA = "Delta"`. -/
inductive ReleaseType where
  | full
  | snapshot
  | delta
deriving DecidableEq, Repr

/-- The enum's value string (`release_type.value`). -/
def ReleaseType.value : ReleaseType → String
  | .full => "Full"
  | .snapshot => "Snapshot"
  | .delta => "Delta"

/-- `self.short_code = full_name[0].lower()`: first letter of the value,
lowercased. -/
def ReleaseType.short_code (rt : ReleaseType) : Char :=
  match rt.value.data with
  | c :: _ => c.toLower
  | [] => ' '

/-! ## A small regex AST

Exactly the constructs the loader's `filter_regex` uses: literals,
bounded repetitions of a character class, `+` on a character class,
`?`, alternation, concatenation and numbered capture groups. -/

/-- Regex abstract syntax. `cls p lo hi` is `p{lo,hi}`; `plus p` is `p+`;
`opt` is `?`; `grp n r` is a numbered capture group `(r)`. -/
inductive RE where
  | lit (cs : List Char)
  | cls (p : Char → Bool) (lo hi : Nat)
  | plus (p : Char → Bool)
  | opt (r : RE)
  | alt (a b : RE)
  | cat (a b : RE)
  | grp (n : Nat) (r : RE)

/-- Capture environment: group number paired with the captured substring.
The most recently closed group is at the head. -/
abbrev GEnv := List (Nat × List Char)

/-- Length of the maximal prefix of `s` whose characters satisfy `p`. -/
def leadRun (p : Char → Bool) : List Char → Nat
  | [] => 0
  | c :: cs => if p c then leadRun p cs + 1 else 0

/-- Backtracking regex matcher in continuation-passing style, following
Python's priority order: alternatives left to right, greedy quantifiers
longest first, optional items present first.  `k` receives the remaining
input and the capture environment; the first overall success wins. -/
def mrun : RE → List Char → GEnv → (List Char → GEnv → Option GEnv) → Option GEnv
  | .lit cs, s, e, k => if cs.isPrefixOf s then k (s.drop cs.length) e else none
  | .cls p lo hi, s, e, k =>
      let m := min hi (leadRun p s)
      ((List.range (m + 1 - lo)).map (fun i => m - i)).findSome? fun n => k (s.drop n) e
  | .plus p, s, e, k =>
      let m := leadRun p s
      ((List.range m).map (fun i => m - i)).findSome? fun n => k (s.drop n) e
  | .opt r, s, e, k =>
      match mrun r s e k with
      | some res => some res
      | none => k s e
  | .alt a b, s, e, k =>
      match mrun a s e k with
      | some res => some res
      | none => mrun b s e k
  | .cat a b, s, e, k => mrun a s e fun s1 e1 => mrun b s1 e1 k
  | .grp n r, s, e, k =>
      mrun r s e fun s1 e1 => k s1 ((n, s.take (s.length - s1.length)) :: e1)

/-- Declarative semantics with captures: `MemG r u e e'` says the regex `r`
matches exactly the string `u`, transforming capture environment `e`
into `e'`. -/
def MemG : RE → List Char → GEnv → GEnv → Prop
  | .lit cs, u, e, e1 => u = cs ∧ e1 = e
  | .cls p lo hi, u, e, e1 =>
      lo ≤ u.length ∧ u.length ≤ hi ∧ (∀ c ∈ u, p c = true) ∧ e1 = e
  | .plus p, u, e, e1 => u ≠ [] ∧ (∀ c ∈ u, p c = true) ∧ e1 = e
  | .opt r, u, e, e1 => (u = [] ∧ e1 = e) ∨ MemG r u e e1
  | .alt a b, u, e, e1 => MemG a u e e1 ∨ MemG b u e e1
  | .cat a b, u, e, e1 => ∃ u1 u2 em, u = u1 ++ u2 ∧ MemG a u1 e em ∧ MemG b u2 em e1
  | .grp n r, u, e, e1 => ∃ em, MemG r u e em ∧ e1 = (n, u) :: em

/-- A regex matches a whole string (captures existential). -/
def Matches (r : RE) (s : List Char) : Prop := ∃ e, MemG r s [] e

/-! ## Helper lemmas about the list machinery -/

theorem isPrefixOf_iff_append (u : List Char) :
    ∀ s : List Char, u.isPrefixOf s = true ↔ ∃ v, s = u ++ v := by
  induction u with
  | nil =>
    intro s
    simp [List.isPrefixOf]
  | cons a as ih =>
    intro s
    cases s with
    | nil =>
      simp [List.isPrefixOf]
    | cons b bs =>
      simp only [List.isPrefixOf, Bool.and_eq_true, beq_iff_eq, ih bs, List.cons_append,
        List.cons.injEq]
      constructor
      · rintro ⟨rfl, v, rfl⟩
        exact ⟨v, rfl, rfl⟩
      · rintro ⟨v, rfl, rfl⟩
        exact ⟨rfl, v, rfl⟩

theorem leadRun_le_length (p : Char → Bool) : ∀ s : List Char, leadRun p s ≤ s.length := by
  intro s
  induction s with
  | nil => simp [leadRun]
  | cons c cs ih =>
    simp only [leadRun, List.length_cons]
    split <;> omega

theorem take_sat_of_le_leadRun (p : Char → Bool) :
    ∀ (s : List Char) (n : Nat), n ≤ leadRun p s → ∀ c ∈ s.take n, p c = true := by
  intro s
  induction s with
  | nil => simp
  | cons a as ih =>
    intro n hn c hc
    cases n with
    | zero => simp at hc
    | succ m =>
      simp only [leadRun] at hn
      by_cases hp : p a = true
      · rw [if_pos hp] at hn
        simp only [List.take_succ_cons, List.mem_cons] at hc
        rcases hc with rfl | hc
        · exact hp
        · exact ih m (by omega) c hc
      · rw [if_neg hp] at hn
        omega

theorem all_sat_le_leadRun (p : Char → Bool) :
    ∀ (u v : List Char), (∀ c ∈ u, p c = true) → u.length ≤ leadRun p (u ++ v) := by
  intro u
  induction u with
  | nil => simp
  | cons a as ih =>
    intro v hall
    have hp : p a = true := hall a (by simp)
    have h2 : as.length ≤ leadRun p (as ++ v) := ih v fun c hc => hall c (by simp [hc])
    show (a :: as).length ≤ leadRun p (a :: (as ++ v))
    simp only [leadRun, if_pos hp, List.length_cons]
    omega

theorem mem_desc_range {lo m n : Nat} (h1 : lo ≤ n) (h2 : n ≤ m) :
    n ∈ (List.range (m + 1 - lo)).map (fun i => m - i) := by
  rw [List.mem_map]
  exact ⟨m - n, by rw [List.mem_range]; omega, by omega⟩

theorem desc_range_mem {lo m n : Nat}
    (h : n ∈ (List.range (m + 1 - lo)).map (fun i => m - i)) : lo ≤ n ∧ n ≤ m := by
  rw [List.mem_map] at h
  obtain ⟨i, hi, rfl⟩ := h
  rw [List.mem_range] at hi
  omega

theorem findSome?_eq_some {α β : Type} {l : List α} {f : α → Option β} {b : β}
    (h : l.findSome? f = some b) : ∃ a ∈ l, f a = some b := by
  induction l with
  | nil => simp [List.findSome?] at h
  | cons x xs ih =>
    rw [List.findSome?] at h
    cases hx : f x with
    | some y =>
      rw [hx] at h
      exact ⟨x, by simp, by rw [hx]; exact h⟩
    | none =>
      rw [hx] at h
      obtain ⟨a, ha, hfa⟩ := ih h
      exact ⟨a, by simp [ha], hfa⟩

theorem findSome?_isSome {α β : Type} {l : List α} {f : α → Option β} {a : α}
    (ha : a ∈ l) (hf : (f a).isSome = true) : (l.findSome? f).isSome = true := by
  induction l with
  | nil => simp at ha
  | cons x xs ih =>
    rw [List.findSome?]
    cases hx : f x with
    | some y => simp
    | none =>
      rcases List.mem_cons.mp ha with rfl | ha2
      · rw [hx] at hf
        simp at hf
      · exact ih ha2

/-! ## Soundness and completeness of the backtracking matcher -/

/-- Soundness: a successful run of the matcher yields a decomposition of the
input into a matched prefix (with its capture environment) and a remainder
accepted by the continuation. -/
theorem mrun_sound (r : RE) :
    ∀ (s : List Char) (e : GEnv) (k : List Char → GEnv → Option GEnv) (res : GEnv),
    mrun r s e k = some res →
    ∃ u v e1, s = u ++ v ∧ MemG r u e e1 ∧ k v e1 = some res := by
  induction r with
  | lit cs =>
    intro s e k res h
    simp only [mrun] at h
    split at h
    · rename_i hp
      obtain ⟨v, rfl⟩ := (isPrefixOf_iff_append cs s).mp hp
      exact ⟨cs, v, e, rfl, ⟨rfl, rfl⟩, by rwa [List.drop_left] at h⟩
    · exact absurd h (by simp)
  | cls p lo hi =>
    intro s e k res h
    simp only [mrun] at h
    obtain ⟨n, hn, hk⟩ := findSome?_eq_some h
    obtain ⟨hlo, hm⟩ := desc_range_mem hn
    have hrun : n ≤ leadRun p s := le_trans hm (min_le_right _ _)
    have hlen : n ≤ s.length := le_trans hrun (leadRun_le_length p s)
    refine ⟨s.take n, s.drop n, e, (List.take_append_drop n s).symm, ?_, hk⟩
    refine ⟨?_, ?_, take_sat_of_le_leadRun p s n hrun, rfl⟩
    · rw [List.length_take]
      omega
    · rw [List.length_take]
      exact le_trans (by omega) (le_trans hm (min_le_left _ _))
  | plus p =>
    intro s e k res h
    simp only [mrun] at h
    have h2 : ((List.range (leadRun p s + 1 - 1)).map
        (fun i => leadRun p s - i)).findSome? (fun n => k (s.drop n) e) = some res := h
    obtain ⟨n, hn, hk⟩ := findSome?_eq_some h2
    obtain ⟨hlo, hm⟩ := desc_range_mem hn
    have hlen : n ≤ s.length := le_trans hm (leadRun_le_length p s)
    refine ⟨s.take n, s.drop n, e, (List.take_append_drop n s).symm, ?_, hk⟩
    refine ⟨?_, take_sat_of_le_leadRun p s n hm, rfl⟩
    intro hnil
    have : (s.take n).length = 0 := by rw [hnil]; rfl
    rw [List.length_take] at this
    omega
  | opt r ih =>
    intro s e k res h
    simp only [mrun] at h
    cases hm : mrun r s e k with
    | some y =>
      rw [hm] at h
      have hy : y = res := by simpa using h
      subst hy
      obtain ⟨u, v, e1, rfl, hr, hk⟩ := ih _ _ _ _ hm
      exact ⟨u, v, e1, rfl, Or.inr hr, hk⟩
    | none =>
      rw [hm] at h
      exact ⟨[], s, e, rfl, Or.inl ⟨rfl, rfl⟩, h⟩
  | alt a b iha ihb =>
    intro s e k res h
    simp only [mrun] at h
    cases hm : mrun a s e k with
    | some y =>
      rw [hm] at h
      have hy : y = res := by simpa using h
      subst hy
      obtain ⟨u, v, e1, rfl, hr, hk⟩ := iha _ _ _ _ hm
      exact ⟨u, v, e1, rfl, Or.inl hr, hk⟩
    | none =>
      rw [hm] at h
      have h2 : mrun b s e k = some res := h
      obtain ⟨u, v, e1, rfl, hr, hk⟩ := ihb _ _ _ _ h2
      exact ⟨u, v, e1, rfl, Or.inr hr, hk⟩
  | cat a b iha ihb =>
    intro s e k res h
    simp only [mrun] at h
    obtain ⟨u, v, e1, rfl, ha, hk⟩ := iha _ _ _ _ h
    obtain ⟨u2, v2, e2, rfl, hb, hk2⟩ := ihb _ _ _ _ hk
    exact ⟨u ++ u2, v2, e2, by rw [List.append_assoc], ⟨u, u2, e1, rfl, ha, hb⟩, hk2⟩
  | grp n r ih =>
    intro s e k res h
    simp only [mrun] at h
    obtain ⟨u, v, e1, rfl, hr, hk⟩ := ih _ _ _ _ h
    have hlen : (u ++ v).length - v.length = u.length := by
      rw [List.length_append]; omega
    rw [hlen, List.take_left] at hk
    exact ⟨u, v, (n, u) :: e1, rfl, ⟨e1, hr, rfl⟩, hk⟩

/-- Completeness: if some prefix of the input matches (with some capture
environment) and the continuation accepts the remainder, the matcher
succeeds. -/
theorem mrun_complete (r : RE) :
    ∀ (u v : List Char) (e e1 : GEnv) (k : List Char → GEnv → Option GEnv),
    MemG r u e e1 → (k v e1).isSome = true → (mrun r (u ++ v) e k).isSome = true := by
  induction r with
  | lit cs =>
    intro u v e e1 k hm hk
    obtain ⟨hu, he⟩ := hm
    subst hu
    subst he
    simp only [mrun]
    rw [if_pos ((isPrefixOf_iff_append u (u ++ v)).mpr ⟨v, rfl⟩), List.drop_left]
    exact hk
  | cls p lo hi =>
    intro u v e e1 k hm hk
    obtain ⟨hlo, hhi, hall, he⟩ := hm
    subst he
    simp only [mrun]
    have hlr : u.length ≤ leadRun p (u ++ v) := all_sat_le_leadRun p u v hall
    apply findSome?_isSome (mem_desc_range hlo (le_min hhi hlr))
    rw [List.drop_left]
    exact hk
  | plus p =>
    intro u v e e1 k hm hk
    obtain ⟨hne, hall, he⟩ := hm
    subst he
    simp only [mrun]
    have hlr : u.length ≤ leadRun p (u ++ v) := all_sat_le_leadRun p u v hall
    have hpos : 1 ≤ u.length := by
      cases u with
      | nil => exact absurd rfl hne
      | cons a as => simp
    have hmem : u.length ∈ (List.range (leadRun p (u ++ v) + 1 - 1)).map
        (fun i => leadRun p (u ++ v) - i) := mem_desc_range hpos hlr
    apply findSome?_isSome hmem
    rw [List.drop_left]
    exact hk
  | opt r ih =>
    intro u v e e1 k hm hk
    simp only [mrun]
    rcases hm with ⟨rfl, rfl⟩ | hr
    · split
      · simp
      · simpa using hk
    · have h2 := ih u v e e1 k hr hk
      split
      · simp
      · rename_i hnone
        rw [hnone] at h2
        simp at h2
  | alt a b iha ihb =>
    intro u v e e1 k hm hk
    simp only [mrun]
    rcases hm with ha | hb
    · have h2 := iha u v e e1 k ha hk
      split
      · simp
      · rename_i hnone
        rw [hnone] at h2
        simp at h2
    · split
      · simp
      · exact ihb u v e e1 k hb hk
  | cat a b iha ihb =>
    intro u v e e1 k hm hk
    obtain ⟨u1, u2, em, hu, ha, hb⟩ := hm
    subst hu
    simp only [mrun]
    rw [List.append_assoc]
    exact iha u1 (u2 ++ v) e em _ ha (ihb u2 v em e1 k hb hk)
  | grp n r ih =>
    intro u v e e1 k hm hk
    obtain ⟨em, hr, he⟩ := hm
    subst he
    simp only [mrun]
    apply ih u v e em _ hr
    have hlen : (u ++ v).length - v.length = u.length := by
      rw [List.length_append]; omega
    simp only [hlen, List.take_left]
    exact hk

/-! ## The filter regex (source lines 87-100)

```
file_type         = r"x?(sct|der)2"                 # match group 1
content_type      = r"(\w+)"                        # match group 2
refset_id         = r"(?:\d{6,18})?"
summary           = r"(\w+)?"                       # match group 3
language_code     = r"(-[a-z-]{2,8})?"              # match group 4
country_namespace = r"(?:(INT|[A-Z]{2})\d{7})"      # match group 5
version_date      = r"\d{8}"
filter_regex = rf"^{file_type}_{content_type}_{refset_id}{summary}{rt}{language_code}_{country_namespace}_{version_date}\.txt$"
```
-/

/-- `x?(sct|der)2` — group 1 is the `sct`/`der` core. -/
def fileTypeRE : RE :=
  .cat (.opt (.lit ['x'])) (.cat (.grp 1 (.alt (.lit "sct".data) (.lit "der".data))) (.lit ['2']))

/-- `(\w+)` — group 2, the content type. -/
def contentTypeRE : RE := .grp 2 (.plus isWordChar)

/-- `(?:\d{6,18})?` — optional refset id. -/
def refsetIdRE : RE := .opt (.cls Char.isDigit 6 18)

/-- `(\w+)?` — group 3, the optional summary. -/
def summaryRE : RE := .opt (.grp 3 (.plus isWordChar))

/-- `(-[a-z-]{2,8})?` — group 4, the optional language code. -/
def langRE : RE := .opt (.grp 4 (.cat (.lit ['-']) (.cls isLangChar 2 8)))

/-- `(?:(INT|[A-Z]{2})\d{7})` — group 5 plus seven mandatory digits. -/
def nsRE : RE :=
  .cat (.grp 5 (.alt (.lit "INT".data) (.cls Char.isUpper 2 2))) (.cls Char.isDigit 7 7)

/-- `\d{8}` — the version date. -/
def dateRE : RE := .cls Char.isDigit 8 8

/-- The complete anchored `filter_regex` for a release type, as concatenated
in the source (left-nested concatenation; the trailing `\.txt` literal is the
right operand of the outermost concatenation). -/
def filterRE (rt : ReleaseType) : RE :=
  .cat
    (.cat
      (.cat
        (.cat
          (.cat
            (.cat
              (.cat
                (.cat
                  (.cat
                    (.cat (.cat fileTypeRE (.lit ['_'])) contentTypeRE)
                    (.lit ['_']))
                  refsetIdRE)
                summaryRE)
              (.lit rt.value.data))
            langRE)
          (.lit ['_']))
        nsRE)
      (.lit ['_']))
    (.cat dateRE (.lit ".txt".data))

/-- Run the filter regex against a whole filename (the `^`/`$` anchors are
modelled by requiring all input to be consumed), returning the capture
environment of the first match in Python's backtracking order.  This models
`re.match(filter_regex, filename)`. -/
def pymatch (rt : ReleaseType) (s : List Char) : Option GEnv :=
  mrun (filterRE rt) s [] fun v e => if v = [] then some e else none

/-- `match.group(n)`: the captured substring of group `n`, or `none` if the
group did not participate in the match. -/
def group (e : GEnv) (n : Nat) : Option (List Char) :=
  e.findSome? fun p => if p.1 = n then some p.2 else none

/-- The classifier: acceptance plus the three capture groups the code uses
(`match.group(1)`, `match.group(2)`, `match.group(3)`). -/
def classify (rt : ReleaseType) (s : List Char) :
    Option (Option (List Char) × Option (List Char) × Option (List Char)) :=
  (pymatch rt s).map fun e => (group e 1, group e 2, group e 3)

/-! ## The spec's grammar (§4.1), for comparison with the code's regex

Stated from the spec's words: fileKind is an optional leading `x` plus
`sct`/`der` plus literal `2` (the core is the first capture); contentType is
one or more word characters (second capture); contentSubType is an optional
6-18 digit refset id, an optional word-token summary capture (third capture),
the release type's literal label, and an optional language-code suffix of 2-8
lowercase letters/hyphens prefixed by a hyphen; countryNamespace is literal
`INT` or two uppercase letters, immediately followed by 7 digits; versionDate
is exactly 8 digits; the extension is literal `txt` after a dot; the parts
are separated by underscores. -/
def specGrammar (rt : ReleaseType) : RE :=
  .cat
    (.cat
      (.cat
        (.cat
          (.cat
            (.cat
              (.cat
                (.cat
                  (.cat
                    (.cat
                      (.cat
                        (.cat (.opt (.lit ['x']))
                          (.cat (.grp 1 (.alt (.lit "sct".data) (.lit "der".data)))
                            (.lit ['2'])))
                        (.lit ['_']))
                      (.grp 2 (.plus isWordChar)))
                    (.lit ['_']))
                  (.opt (.cls Char.isDigit 6 18)))
                (.opt (.grp 3 (.plus isWordChar))))
              (.lit rt.value.data))
            (.opt (.grp 4 (.cat (.lit ['-']) (.cls isLangChar 2 8)))))
          (.lit ['_']))
        (.cat (.grp 5 (.alt (.lit "INT".data) (.cls Char.isUpper 2 2)))
          (.cls Char.isDigit 7 7)))
      (.lit ['_']))
    (.cat (.cls Char.isDigit 8 8) (.lit ".txt".data))

theorem specGrammar_eq_filterRE (rt : ReleaseType) : specGrammar rt = filterRE rt := rfl

/-! ## The normalization pipeline (source lines 105-158) -/

/-- `extract_strategy` (source lines 105-114): the replacement function of the
first rewrite.  Python would raise a `TypeError` when it concatenates a `None`
group; this is modelled by `Option.map` returning `none`.

```
match.group(2) + "_" + release_type.short_code
  if (match.group(1) == "sct" and match.group(3) != "OWLExpression")
  else match.group(3) + "refset_" + release_type.short_code
```
-/
def extract_strategy (rt : ReleaseType)
    (g1 g2 g3 : Option (List Char)) : Option (List Char) :=
  if g1 = some "sct".data ∧ g3 ≠ some "OWLExpression".data then
    g2.map fun c2 => c2 ++ ['_', rt.short_code]
  else
    g3.map fun c3 => c3 ++ "refset_".data ++ [rt.short_code]

/-- `re.sub(pat, repl, s)` for a regex whose pattern is a literal string
(all the patterns of rules 2-8 below are literal up to group parentheses,
and their replacements only reassemble the captured literals, so each rule
is exactly "replace every non-overlapping occurrence, leftmost first"). -/
def replaceAllF (pat repl : List Char) : Nat → List Char → List Char
  | _, [] => []
  | 0, s => s
  | fuel + 1, c :: rest =>
    if pat ≠ [] ∧ pat.isPrefixOf (c :: rest) then
      repl ++ replaceAllF pat repl fuel (rest.drop (pat.length - 1))
    else
      c :: replaceAllF pat repl fuel rest

/-- `re.sub` for a literal pattern: replace every non-overlapping occurrence,
leftmost first.  (`replaceAllF` is the same scan with explicit fuel; one unit
of fuel is spent per input position, so `s.length` always suffices.) -/
def replaceAll (pat repl s : List Char) : List Char := replaceAllF pat repl s.length s

/-- The literal rewrite rules 2-8 (source lines 121-145), as
(pattern, replacement) pairs of plain strings:

* `drop_suffix_from_refsetdescriptor = (rf"RefsetDescriptorrefset_{short_code}", rf"RefsetDescriptor_{short_code}")`
* `drop_suffix_from_simplerefset = (r"(Simple)(Refset)", r"\1")` — i.e. replace `SimpleRefset` by `Simple`
* `drop_suffix_from_associationreference = (r"(Association)(Reference)", r"\1")`
* `shorten_language_prefix = (r"(Language)", "Lang")`
* `shorten_referenceset = (r"ReferenceSet", "")`
* `add_underscore_to_relationship_concrete_values = (r"(Relationship)(Concrete)(Values)", r"\1_\2_\3")`
* `add_underscore_to_stated_relationship = (r"(Stated)(Relationship)", r"\1_\2")`
-/
def literalRules (rt : ReleaseType) : List (List Char × List Char) :=
  [ (("RefsetDescriptorrefset_".data ++ [rt.short_code]),
     ("RefsetDescriptor_".data ++ [rt.short_code])),
    ("SimpleRefset".data, "Simple".data),
    ("AssociationReference".data, "Association".data),
    ("Language".data, "Lang".data),
    ("ReferenceSet".data, [])
    , ("RelationshipConcreteValues".data, "Relationship_Concrete_Values".data),
    ("StatedRelationship".data, "Stated_Relationship".data) ]

/-- Rules 2-8 applied in order. -/
def applyRules (rt : ReleaseType) (s : List Char) : List Char :=
  (literalRules rt).foldl (fun acc pr => replaceAll pr.1 pr.2 acc) s

/-- `str.lower()` over ASCII. -/
def lowerAll (s : List Char) : List Char := s.map Char.toLower

/-- Rule 1, the base extraction (`re.sub(filter_regex, extract_strategy,
name)`): the pattern is anchored on both sides, so the substitution is the
identity if the regex does not match the whole string, and replaces the whole
string by `extract_strategy`'s result if it does (`none` for the `TypeError`
case). -/
def baseExtraction (rt : ReleaseType) (s : List Char) : Option (List Char) :=
  match pymatch rt s with
  | some e => extract_strategy rt (group e 1) (group e 2) (group e 3)
  | none => some s

/-- One pass of the full rewrite pipeline (the `regex_transformations` loop of
source lines 150-155 plus the final `.lower()` of line 157): base extraction,
then rules 2-8, then lowercasing. -/
def normalizeOnce (rt : ReleaseType) (s : List Char) : Option (List Char) :=
  (baseExtraction rt s).map fun t => lowerAll (applyRules rt t)

/-- The per-file work of the scanner loop (source lines 149-158): a file
enters the load plan only if `re.match(filter_regex, filename)` succeeds, and
its table name is then the normalized, lowercased rewrite of the filename. -/
def get_table_name (rt : ReleaseType) (filename : List Char) : Option (List Char) :=
  if (pymatch rt filename).isSome then normalizeOnce rt filename else none

/-! ## Character-level facts about ASCII lowercasing -/

theorem toNat_ofNat_valid (n : Nat) (h : n.isValidChar) : (Char.ofNat n).toNat = n := by
  unfold Char.ofNat
  rw [dif_pos h]
  rfl

theorem toLower_toNat (c : Char) :
    (Char.toLower c).toNat = if 65 ≤ c.toNat ∧ c.toNat ≤ 90 then c.toNat + 32 else c.toNat := by
  simp only [Char.toLower, ge_iff_le]
  split
  · rename_i h
    rw [toNat_ofNat_valid]
    left
    omega
  · rfl

theorem char_eq_of_toNat_eq {c d : Char} (h : c.toNat = d.toNat) : c = d := by
  apply Char.eq_of_val_eq
  apply UInt32.eq_of_toBitVec_eq
  apply BitVec.eq_of_toNat_eq
  exact h

theorem uint32_le_iff (a b : UInt32) : a ≤ b ↔ a.toNat ≤ b.toNat := by
  rw [UInt32.le_def, BitVec.le_def]
  exact Iff.rfl

theorem isUpper_iff_toNat (c : Char) :
    c.isUpper = true ↔ 65 ≤ c.toNat ∧ c.toNat ≤ 90 := by
  simp only [Char.isUpper, Bool.and_eq_true, decide_eq_true_eq, ge_iff_le]
  rw [uint32_le_iff, uint32_le_iff]
  exact Iff.rfl

theorem isLower_iff_toNat (c : Char) :
    c.isLower = true ↔ 97 ≤ c.toNat ∧ c.toNat ≤ 122 := by
  simp only [Char.isLower, Bool.and_eq_true, decide_eq_true_eq, ge_iff_le]
  rw [uint32_le_iff, uint32_le_iff]
  exact Iff.rfl

theorem isDigit_iff_toNat (c : Char) :
    c.isDigit = true ↔ 48 ≤ c.toNat ∧ c.toNat ≤ 57 := by
  simp only [Char.isDigit, Bool.and_eq_true, decide_eq_true_eq, ge_iff_le]
  rw [uint32_le_iff, uint32_le_iff]
  exact Iff.rfl

/-- `toLower` never produces an ASCII uppercase letter. -/
theorem toLower_not_upper (c : Char) : (Char.toLower c).isUpper = false := by
  rw [Bool.eq_false_iff]
  intro h
  rw [isUpper_iff_toNat, toLower_toNat] at h
  split at h <;> omega

/-- `toLower` is idempotent. -/
theorem toLower_idem (c : Char) : (Char.toLower c).toLower = Char.toLower c := by
  apply char_eq_of_toNat_eq
  rw [toLower_toNat (Char.toLower c)]
  have h2 : ¬ (65 ≤ (Char.toLower c).toNat ∧ (Char.toLower c).toNat ≤ 90) := by
    intro hr
    have h3 := (isUpper_iff_toNat (Char.toLower c)).mpr hr
    rw [toLower_not_upper c] at h3
    exact absurd h3 (by simp)
  rw [if_neg h2]

/-- `toLower` maps word characters to word characters. -/
theorem isWordChar_toLower {c : Char} (h : isWordChar c = true) :
    isWordChar (Char.toLower c) = true := by
  simp only [isWordChar, Char.isAlphanum, Char.isAlpha, Bool.or_eq_true,
    decide_eq_true_eq] at h ⊢
  rcases h with ((hu | hl) | hd) | heq
  · left
    left
    right
    rw [isUpper_iff_toNat] at hu
    rw [isLower_iff_toNat, toLower_toNat, if_pos hu]
    omega
  · have hno : ¬(65 ≤ c.toNat ∧ c.toNat ≤ 90) := by
      rw [isLower_iff_toNat] at hl
      omega
    left
    left
    right
    rw [isLower_iff_toNat, toLower_toNat, if_neg hno]
    rw [isLower_iff_toNat] at hl
    exact hl
  · have hno : ¬(65 ≤ c.toNat ∧ c.toNat ≤ 90) := by
      rw [isDigit_iff_toNat] at hd
      omega
    left
    right
    rw [isDigit_iff_toNat, toLower_toNat, if_neg hno]
    rw [isDigit_iff_toNat] at hd
    exact hd
  · subst heq
    right
    rfl

/-- A word character is never `'.'`. -/
theorem wordChar_ne_dot {c : Char} (h : isWordChar c = true) : c ≠ '.' := by
  intro hc
  subst hc
  simp [isWordChar, Char.isAlphanum, Char.isAlpha, Char.isUpper, Char.isLower,
    Char.isDigit] at h

/-! ## Facts about the literal rewrite rules -/

/-- Character-predicate preservation: every character of the output of a
replacement scan comes from the input or from the replacement string. -/
theorem replaceAllF_sat {P : Char → Bool} {pat repl : List Char}
    (hrepl : ∀ c ∈ repl, P c = true) :
    ∀ (fuel : Nat) (s : List Char), (∀ c ∈ s, P c = true) →
      ∀ c ∈ replaceAllF pat repl fuel s, P c = true := by
  intro fuel
  induction fuel with
  | zero =>
    intro s hs c hc
    cases s with
    | nil => simp [replaceAllF] at hc
    | cons a rest => exact hs c hc
  | succ f ih =>
    intro s hs c hc
    cases s with
    | nil => simp [replaceAllF] at hc
    | cons a rest =>
      simp only [replaceAllF] at hc
      split at hc
      · rw [List.mem_append] at hc
        rcases hc with hc | hc
        · exact hrepl c hc
        · refine ih _ ?_ c hc
          intro d hd
          exact hs d (List.mem_cons_of_mem a (List.drop_subset _ _ hd))
      · rcases List.mem_cons.mp hc with rfl | hc
        · exact hs c (by simp)
        · exact ih rest (fun d hd => hs d (List.mem_cons_of_mem a hd)) c hc

/-- If the pattern contains a character the input never contains (here phrased
through a predicate), the replacement scan is the identity. -/
theorem replaceAllF_id {P : Char → Bool} {pat repl : List Char} {bad : Char}
    (hbad : bad ∈ pat) (hbadP : P bad = false) :
    ∀ (fuel : Nat) (s : List Char), (∀ c ∈ s, P c = true) →
      replaceAllF pat repl fuel s = s := by
  intro fuel
  induction fuel with
  | zero =>
    intro s _
    cases s with
    | nil => rfl
    | cons a rest => rfl
  | succ f ih =>
    intro s hs
    cases s with
    | nil => rfl
    | cons a rest =>
      have hnp : ¬(pat ≠ [] ∧ pat.isPrefixOf (a :: rest) = true) := by
        rintro ⟨-, hp⟩
        obtain ⟨v, hv⟩ := (isPrefixOf_iff_append pat (a :: rest)).mp hp
        have : bad ∈ a :: rest := by
          rw [hv, List.mem_append]
          exact Or.inl hbad
        rw [hs bad this] at hbadP
        exact absurd hbadP (by simp)
      simp only [replaceAllF, if_neg hnp]
      rw [ih rest fun d hd => hs d (List.mem_cons_of_mem a hd)]

theorem replaceAll_sat {P : Char → Bool} {pat repl s : List Char}
    (hrepl : ∀ c ∈ repl, P c = true) (hs : ∀ c ∈ s, P c = true) :
    ∀ c ∈ replaceAll pat repl s, P c = true :=
  replaceAllF_sat hrepl s.length s hs

theorem replaceAll_id (bad : Char) {P : Char → Bool} {pat repl s : List Char}
    (hbad : bad ∈ pat) (hbadP : P bad = false) (hs : ∀ c ∈ s, P c = true) :
    replaceAll pat repl s = s :=
  replaceAllF_id hbad hbadP s.length s hs

theorem short_code_wordChar (rt : ReleaseType) : isWordChar rt.short_code = true := by
  cases rt <;> decide

/-- Rules 2-8 map all-word-character strings to all-word-character strings. -/
theorem applyRules_wordChar {rt : ReleaseType} {s : List Char}
    (hs : ∀ c ∈ s, isWordChar c = true) :
    ∀ c ∈ applyRules rt s, isWordChar c = true := by
  simp only [applyRules, literalRules, List.foldl]
  apply replaceAll_sat (by decide)
  apply replaceAll_sat (by decide)
  apply replaceAll_sat (by decide)
  apply replaceAll_sat (by decide)
  apply replaceAll_sat (by decide)
  apply replaceAll_sat (by decide)
  apply replaceAll_sat ?_ hs
  intro c hc
  rw [List.mem_append] at hc
  rcases hc with hc | hc
  · revert c hc
    decide
  · rcases List.mem_singleton.mp hc with rfl
    exact short_code_wordChar rt

/-- Every pattern of rules 2-8 contains an uppercase letter, so on a string
with no uppercase letters rules 2-8 are the identity. -/
theorem applyRules_id {rt : ReleaseType} {s : List Char}
    (hs : ∀ c ∈ s, c.isUpper = false) : applyRules rt s = s := by
  have hs2 : ∀ c ∈ s, (!c.isUpper) = true := by
    intro c hc
    rw [hs c hc]
    rfl
  simp only [applyRules, literalRules, List.foldl]
  rw [replaceAll_id 'R' (List.mem_append_left _ (by decide)) (by decide) hs2,
    replaceAll_id 'S' (by decide) (by decide) hs2,
    replaceAll_id 'A' (by decide) (by decide) hs2,
    replaceAll_id 'L' (by decide) (by decide) hs2,
    replaceAll_id 'R' (by decide) (by decide) hs2,
    replaceAll_id 'R' (by decide) (by decide) hs2,
    replaceAll_id 'S' (by decide) (by decide) hs2]

theorem lowerAll_not_upper (s : List Char) : ∀ c ∈ lowerAll s, c.isUpper = false := by
  intro c hc
  rw [lowerAll, List.mem_map] at hc
  obtain ⟨d, -, rfl⟩ := hc
  exact toLower_not_upper d

theorem lowerAll_wordChar {s : List Char} (hs : ∀ c ∈ s, isWordChar c = true) :
    ∀ c ∈ lowerAll s, isWordChar c = true := by
  intro c hc
  rw [lowerAll, List.mem_map] at hc
  obtain ⟨d, hd, rfl⟩ := hc
  exact isWordChar_toLower (hs d hd)

theorem toLower_fixed_of_not_upper {c : Char} (h : c.isUpper = false) :
    Char.toLower c = c := by
  apply char_eq_of_toNat_eq
  rw [toLower_toNat, if_neg]
  intro hr
  have h3 := (isUpper_iff_toNat c).mpr hr
  rw [h] at h3
  exact absurd h3 (by simp)

theorem lowerAll_fixed : ∀ {s : List Char}, (∀ c ∈ s, c.isUpper = false) →
    lowerAll s = s := by
  intro s
  induction s with
  | nil => intro _; rfl
  | cons a rest ih =>
    intro hs
    show Char.toLower a :: List.map Char.toLower rest = a :: rest
    rw [toLower_fixed_of_not_upper (hs a (by simp))]
    have h2 : lowerAll rest = rest := ih fun c hc => hs c (List.mem_cons_of_mem a hc)
    rw [show List.map Char.toLower rest = lowerAll rest from rfl, h2]

/-! ## Inversion lemmas for the concrete pattern -/

/-- Syntactic test: the regex contains no capture group. -/
def grpFree : RE → Bool
  | .lit _ => true
  | .cls _ _ _ => true
  | .plus _ => true
  | .opt r => grpFree r
  | .alt a b => grpFree a && grpFree b
  | .cat a b => grpFree a && grpFree b
  | .grp _ _ => false

/-- A group-free regex leaves the capture environment unchanged. -/
theorem MemG_grpFree {r : RE} (h : grpFree r = true) :
    ∀ {u : List Char} {e e1 : GEnv}, MemG r u e e1 → e1 = e := by
  induction r with
  | lit cs =>
    intro u e e1 hm
    exact hm.2
  | cls p lo hi =>
    intro u e e1 hm
    exact hm.2.2.2
  | plus p =>
    intro u e e1 hm
    exact hm.2.2
  | opt r ih =>
    intro u e e1 hm
    rcases hm with ⟨-, he⟩ | hm
    · exact he
    · exact ih h hm
  | alt a b iha ihb =>
    rw [show grpFree (.alt a b) = (grpFree a && grpFree b) from rfl,
      Bool.and_eq_true] at h
    intro u e e1 hm
    rcases hm with hm | hm
    · exact iha h.1 hm
    · exact ihb h.2 hm
  | cat a b iha ihb =>
    rw [show grpFree (.cat a b) = (grpFree a && grpFree b) from rfl,
      Bool.and_eq_true] at h
    intro u e e1 hm
    obtain ⟨u1, u2, em, -, ha, hb⟩ := hm
    rw [ihb h.2 hb, iha h.1 ha]
  | grp n r ih =>
    exact absurd h (by simp [grpFree])

theorem fileType_inv {u : List Char} {e e1 : GEnv} (h : MemG fileTypeRE u e e1) :
    ∃ core, e1 = (1, core) :: e ∧ (core = "sct".data ∨ core = "der".data) := by
  simp only [fileTypeRE, MemG] at h
  obtain ⟨u1, u2, em, -, hopt, u3, u4, em2, -, ⟨eg, halt, he⟩, -, he2⟩ := h
  have hem : em = e := by
    rcases hopt with ⟨-, h2⟩ | ⟨-, h2⟩ <;> exact h2
  rcases halt with ⟨hu3, heg⟩ | ⟨hu3, heg⟩ <;>
    exact ⟨u3, by rw [he2, he, heg, hem], by rw [hu3]; simp⟩

theorem contentType_inv {u : List Char} {e e1 : GEnv} (h : MemG contentTypeRE u e e1) :
    e1 = (2, u) :: e ∧ u ≠ [] ∧ ∀ c ∈ u, isWordChar c = true := by
  simp only [contentTypeRE, MemG] at h
  obtain ⟨em, ⟨hne, hall, hem⟩, he⟩ := h
  exact ⟨by rw [he, hem], hne, hall⟩

theorem summary_inv {u : List Char} {e e1 : GEnv} (h : MemG summaryRE u e e1) :
    (u = [] ∧ e1 = e) ∨
      (e1 = (3, u) :: e ∧ u ≠ [] ∧ ∀ c ∈ u, isWordChar c = true) := by
  simp only [summaryRE, MemG] at h
  rcases h with ⟨hu, he⟩ | ⟨em, ⟨hne, hall, hem⟩, he⟩
  · exact Or.inl ⟨hu, he⟩
  · exact Or.inr ⟨by rw [he, hem], hne, hall⟩

theorem lang_inv {u : List Char} {e e1 : GEnv} (h : MemG langRE u e e1) :
    e1 = e ∨ ∃ l, e1 = (4, l) :: e := by
  simp only [langRE, MemG] at h
  rcases h with ⟨-, he⟩ | ⟨em, hin, he⟩
  · exact Or.inl he
  · obtain ⟨u1, u2, em2, -, ⟨-, hem2⟩, -, -, -, hem⟩ := hin
    exact Or.inr ⟨u, by rw [he, hem, hem2]⟩

theorem ns_inv {u : List Char} {e e1 : GEnv} (h : MemG nsRE u e e1) :
    ∃ w, e1 = (5, w) :: e := by
  simp only [nsRE, MemG] at h
  obtain ⟨u1, u2, em, -, ⟨eg, halt, he⟩, -, -, -, hem⟩ := h
  have heg : eg = e := by
    rcases halt with ⟨-, h2⟩ | ⟨-, -, -, h2⟩ <;> exact h2
  exact ⟨u1, by rw [hem, he, heg]⟩

/-- Master inversion: a successful `pymatch` peels into the trailing `.txt`
literal and a capture environment of the shape
`(5,_) :: optional-lang :: optional-summary :: (2,_) :: (1,_) :: []`,
with the word-character facts of the captured groups. -/
theorem pymatch_some_MemG {rt : ReleaseType} {s : List Char} {e : GEnv}
    (h : pymatch rt s = some e) : MemG (filterRE rt) s [] e := by
  obtain ⟨u, v, e1, rfl, hm, hk⟩ := mrun_sound _ _ _ _ _ h
  by_cases hv : v = []
  · subst hv
    rw [if_pos rfl] at hk
    injection hk with hk
    subst hk
    simpa using hm
  · rw [if_neg hv] at hk
    exact absurd hk (by simp)

theorem cat_inv {a b : RE} {u : List Char} {e e1 : GEnv} (h : MemG (.cat a b) u e e1) :
    ∃ u1 u2 em, u = u1 ++ u2 ∧ MemG a u1 e em ∧ MemG b u2 em e1 := h

theorem lit_inv {cs u : List Char} {e e1 : GEnv} (h : MemG (.lit cs) u e e1) :
    u = cs ∧ e1 = e := h

/-- Master inversion: a successful `pymatch` yields the trailing `.txt`
literal and a capture environment of the shape
`(5,_) :: optional-lang :: optional-summary :: (2,_) :: (1,_) :: []`,
with word-character facts for the captured groups. -/
theorem pymatch_env_shape {rt : ReleaseType} {s : List Char} {e : GEnv}
    (h : pymatch rt s = some e) :
    (∃ t, s = t ++ ".txt".data) ∧
    ∃ core c2 w rest34,
      e = (5, w) :: (rest34 ++ [(2, c2), (1, core)]) ∧
      (core = "sct".data ∨ core = "der".data) ∧
      c2 ≠ [] ∧ (∀ c ∈ c2, isWordChar c = true) ∧
      (rest34 = [] ∨ (∃ l, rest34 = [(4, l)]) ∨
        (∃ c3, rest34 = [(3, c3)] ∧ c3 ≠ [] ∧ ∀ c ∈ c3, isWordChar c = true) ∨
        (∃ l c3, rest34 = [(4, l), (3, c3)] ∧ c3 ≠ [] ∧
          ∀ c ∈ c3, isWordChar c = true)) := by
  have hm : MemG (.cat (.cat (.cat (.cat (.cat (.cat (.cat (.cat (.cat (.cat
      (.cat fileTypeRE (.lit ['_'])) contentTypeRE) (.lit ['_'])) refsetIdRE)
      summaryRE) (.lit rt.value.data)) langRE) (.lit ['_'])) nsRE) (.lit ['_']))
      (.cat dateRE (.lit ".txt".data))) s [] e := pymatch_some_MemG h
  obtain ⟨uA, uD2, eA, hsplit1, hmA, hmTail⟩ := cat_inv hm
  obtain ⟨uD, uTxt, eD, hsplit2, hmD, hmTxt⟩ := cat_inv hmTail
  obtain ⟨htxt, heTxt⟩ := lit_inv hmTxt
  have heD : eD = eA := MemG_grpFree (by rfl) hmD
  constructor
  · exact ⟨uA ++ uD, by rw [hsplit1, hsplit2, htxt, List.append_assoc]⟩
  obtain ⟨u9, uu1, e9, -, hm9, hml1⟩ := cat_inv hmA
  have he1 : eA = e9 := (lit_inv hml1).2
  obtain ⟨u8, uns, e8, -, hm8, hmns⟩ := cat_inv hm9
  obtain ⟨w, hens⟩ := ns_inv hmns
  obtain ⟨u7, uu2, e7, -, hm7, hml2⟩ := cat_inv hm8
  have he2 : e8 = e7 := (lit_inv hml2).2
  obtain ⟨u6, ulang, e6, -, hm6, hmlang⟩ := cat_inv hm7
  obtain ⟨u5, ulab, e5, -, hm5, hml3⟩ := cat_inv hm6
  have he3 : e6 = e5 := (lit_inv hml3).2
  obtain ⟨u4, usum, e4, -, hm4, hmsum⟩ := cat_inv hm5
  obtain ⟨u3, urid, e3, -, hm3, hmrid⟩ := cat_inv hm4
  have herid : e4 = e3 := MemG_grpFree (by rfl) hmrid
  obtain ⟨u2, uu3, e2, -, hm2, hml4⟩ := cat_inv hm3
  have he4 : e3 = e2 := (lit_inv hml4).2
  obtain ⟨u1, uct, e1x, -, hm1, hmct⟩ := cat_inv hm2
  obtain ⟨hect, hctne, hctall⟩ := contentType_inv hmct
  obtain ⟨u0, uu4, e0, -, hm0, hml5⟩ := cat_inv hm1
  have he5 : e1x = e0 := (lit_inv hml5).2
  obtain ⟨core, hecore, hcoreok⟩ := fileType_inv hm0
  have hbase : e2 = (2, uct) :: (1, core) :: [] := by
    rw [hect, he5, hecore]
  rcases summary_inv hmsum with ⟨-, hesum⟩ | ⟨hesum, hsne, hsall⟩ <;>
    rcases lang_inv hmlang with helang | ⟨l, helang⟩
  · refine ⟨core, uct, w, [], ?_, hcoreok, hctne, hctall, Or.inl rfl⟩
    rw [heTxt, heD, he1, hens, he2, helang, he3, hesum, herid, he4, hbase]
    rfl
  · refine ⟨core, uct, w, [(4, l)], ?_, hcoreok, hctne, hctall,
      Or.inr (Or.inl ⟨l, rfl⟩)⟩
    rw [heTxt, heD, he1, hens, he2, helang, he3, hesum, herid, he4, hbase]
    rfl
  · refine ⟨core, uct, w, [(3, usum)], ?_, hcoreok, hctne, hctall,
      Or.inr (Or.inr (Or.inl ⟨usum, rfl, hsne, hsall⟩))⟩
    rw [heTxt, heD, he1, hens, he2, helang, he3, hesum, herid, he4, hbase]
    rfl
  · refine ⟨core, uct, w, [(4, l), (3, usum)], ?_, hcoreok, hctne, hctall,
      Or.inr (Or.inr (Or.inr ⟨l, usum, rfl, hsne, hsall⟩))⟩
    rw [heTxt, heD, he1, hens, he2, helang, he3, hesum, herid, he4, hbase]
    rfl

/-- Group lookups after a successful match: group 1 is the `sct`/`der` core,
group 2 a nonempty word-character token, group 3 absent or a nonempty
word-character token; and the input contains a dot. -/
theorem pymatch_groups {rt : ReleaseType} {s : List Char} {e : GEnv}
    (h : pymatch rt s = some e) :
    ('.' ∈ s) ∧
    (∃ core, group e 1 = some core ∧ (core = "sct".data ∨ core = "der".data)) ∧
    (∃ c2, group e 2 = some c2 ∧ c2 ≠ [] ∧ (∀ c ∈ c2, isWordChar c = true)) ∧
    (group e 3 = none ∨
      ∃ c3, group e 3 = some c3 ∧ c3 ≠ [] ∧ ∀ c ∈ c3, isWordChar c = true) := by
  obtain ⟨⟨t, hdot⟩, core, c2, w, rest34, hshape, hcore, hc2ne, hc2all, hrest⟩ :=
    pymatch_env_shape h
  refine ⟨?_, ?_⟩
  · rw [hdot, List.mem_append]
    exact Or.inr (by decide)
  subst hshape
  rcases hrest with rfl | ⟨l, rfl⟩ | ⟨c3, rfl, h3ne, h3all⟩ | ⟨l, c3, rfl, h3ne, h3all⟩
  · exact ⟨⟨core, by simp [group, List.findSome?], hcore⟩,
      ⟨c2, by simp [group, List.findSome?], hc2ne, hc2all⟩,
      Or.inl (by simp [group, List.findSome?])⟩
  · exact ⟨⟨core, by simp [group, List.findSome?], hcore⟩,
      ⟨c2, by simp [group, List.findSome?], hc2ne, hc2all⟩,
      Or.inl (by simp [group, List.findSome?])⟩
  · exact ⟨⟨core, by simp [group, List.findSome?], hcore⟩,
      ⟨c2, by simp [group, List.findSome?], hc2ne, hc2all⟩,
      Or.inr ⟨c3, by simp [group, List.findSome?], h3ne, h3all⟩⟩
  · exact ⟨⟨core, by simp [group, List.findSome?], hcore⟩,
      ⟨c2, by simp [group, List.findSome?], hc2ne, hc2all⟩,
      Or.inr ⟨c3, by simp [group, List.findSome?], h3ne, h3all⟩⟩

/-- Every canonical table name the scanner produces consists of word
characters only and contains no uppercase letter. -/
theorem get_table_name_chars {rt : ReleaseType} {f n : List Char}
    (h : get_table_name rt f = some n) :
    (∀ c ∈ n, isWordChar c = true) ∧ (∀ c ∈ n, c.isUpper = false) := by
  rw [get_table_name] at h
  split at h
  · rename_i hsome
    rw [normalizeOnce, baseExtraction] at h
    cases hpm : pymatch rt f with
    | none => rw [hpm] at hsome; exact absurd hsome (by simp)
    | some e =>
      rw [hpm] at h
      simp only [Option.map_eq_some'] at h
      obtain ⟨b, hb, hn⟩ := h
      obtain ⟨-, ⟨core, hg1, hcore⟩, ⟨c2, hg2, -, hc2all⟩, hg3⟩ := pymatch_groups hpm
      have hword : ∀ c ∈ b, isWordChar c = true := by
        rw [extract_strategy] at hb
        split at hb
        · rw [hg2] at hb
          simp only [Option.map_some'] at hb
          injection hb with hb
          subst hb
          intro c hc
          rw [List.mem_append] at hc
          rcases hc with hc | hc
          · exact hc2all c hc
          · rcases List.mem_cons.mp hc with rfl | hc
            · decide
            · rcases List.mem_singleton.mp hc with rfl
              exact short_code_wordChar rt
        · rcases hg3 with hg3 | ⟨c3, hg3, -, hc3all⟩
          · rw [hg3] at hb
            exact absurd hb (by simp)
          · rw [hg3] at hb
            simp only [Option.map_some'] at hb
            injection hb with hb
            subst hb
            intro c hc
            rw [List.mem_append, List.mem_append] at hc
            rcases hc with (hc | hc) | hc
            · exact hc3all c hc
            · revert c hc
              decide
            · rcases List.mem_singleton.mp hc with rfl
              exact short_code_wordChar rt
      subst hn
      exact ⟨lowerAll_wordChar (applyRules_wordChar hword), lowerAll_not_upper _⟩
  · exact absurd h (by simp)

/-- The rewrite pipeline is the identity on any all-word-character,
uppercase-free string: the anchored filter regex cannot match (no dot), rules
2-8 cannot fire (each pattern contains an uppercase letter), and lowercasing
is already done. -/
theorem normalizeOnce_fixed {rt : ReleaseType} {n : List Char}
    (hword : ∀ c ∈ n, isWordChar c = true) (hlow : ∀ c ∈ n, c.isUpper = false) :
    normalizeOnce rt n = some n := by
  simp only [normalizeOnce, baseExtraction]
  cases hpm : pymatch rt n with
  | some e =>
    exfalso
    have hdot := (pymatch_groups hpm).1
    have h2 := hword '.' hdot
    exact absurd h2 (by decide)
  | none =>
    simp only [Option.map_some']
    rw [applyRules_id hlow, lowerAll_fixed hlow]

/-- Acceptance of the executable classifier coincides with declarative
membership in the pattern's language. -/
theorem pymatch_isSome_iff (rt : ReleaseType) (s : List Char) :
    (pymatch rt s).isSome = true ↔ Matches (filterRE rt) s := by
  constructor
  · intro h
    obtain ⟨e, he⟩ := Option.isSome_iff_exists.mp h
    exact ⟨e, pymatch_some_MemG he⟩
  · rintro ⟨e, he⟩
    have h2 := mrun_complete (filterRE rt) s [] [] e
      (fun v e2 => if v = [] then some e2 else none) he (by simp)
    have h3 : (mrun (filterRE rt) (s ++ []) []
        fun v e2 => if v = [] then some e2 else none).isSome = true := h2
    rw [List.append_nil] at h3
    exact h3

/-! ## The load plan orderer (source lines 160-168) -/

/-- A load plan entry `(normalized table name, containing directory,
original filename)` as appended by the scanner loop. -/
abbrev LoadPlanEntry := List Char × List Char × List Char

/-- Python's `pat in s` substring test. -/
def containsSub (pat : List Char) : List Char → Bool
  | [] => pat.isPrefixOf []
  | s@(_ :: rest) => pat.isPrefixOf s || containsSub pat rest

/-- Python's string `<`: lexicographic by code point.  `charListLe x y` is
`x ≤ y`. -/
def charListLe : List Char → List Char → Bool
  | [], _ => true
  | _ :: _, [] => false
  | a :: as, b :: bs =>
      if a.toNat < b.toNat then true
      else if a.toNat = b.toNat then charListLe as bs
      else false

theorem charListLe_total : ∀ x y : List Char, (charListLe x y || charListLe y x) = true := by
  intro x
  induction x with
  | nil =>
    intro y
    simp [charListLe]
  | cons a as ih =>
    intro y
    cases y with
    | nil => simp [charListLe]
    | cons b bs =>
      simp only [charListLe]
      by_cases h1 : a.toNat < b.toNat
      · simp [if_pos h1]
      · by_cases h2 : a.toNat = b.toNat
        · have h3 : b.toNat = a.toNat := h2.symm
          have h4 : ¬ b.toNat < a.toNat := by omega
          rw [if_neg h1, if_pos h2, if_neg h4, if_pos h3]
          exact ih bs
        · have h4 : b.toNat < a.toNat := by omega
          rw [if_neg h1, if_neg h2, if_pos h4]
          simp

theorem charListLe_trans :
    ∀ x y z : List Char, charListLe x y = true → charListLe y z = true →
      charListLe x z = true := by
  intro x
  induction x with
  | nil =>
    intro y z _ _
    simp [charListLe]
  | cons a as ih =>
    intro y z h1 h2
    cases y with
    | nil => exact absurd h1 (by simp [charListLe])
    | cons b bs =>
      cases z with
      | nil => exact absurd h2 (by simp [charListLe])
      | cons c cs =>
        simp only [charListLe] at h1 h2 ⊢
        by_cases hab : a.toNat < b.toNat <;> by_cases hbc : b.toNat < c.toNat
        · rw [if_pos (by omega : a.toNat < c.toNat)]
        · rw [if_neg hbc] at h2
          by_cases hbc2 : b.toNat = c.toNat
          · rw [if_pos (by omega : a.toNat < c.toNat)]
          · rw [if_neg hbc2] at h2
            exact absurd h2 (by simp)
        · rw [if_neg hab] at h1
          by_cases hab2 : a.toNat = b.toNat
          · rw [if_pos (by omega : a.toNat < c.toNat)]
          · rw [if_neg hab2] at h1
            exact absurd h1 (by simp)
        · rw [if_neg hab] at h1
          rw [if_neg hbc] at h2
          by_cases hab2 : a.toNat = b.toNat
          · by_cases hbc2 : b.toNat = c.toNat
            · rw [if_pos hab2] at h1
              rw [if_pos hbc2] at h2
              rw [if_neg (by omega : ¬ a.toNat < c.toNat),
                if_pos (by omega : a.toNat = c.toNat)]
              exact ih bs cs h1 h2
            · rw [if_neg hbc2] at h2
              exact absurd h2 (by simp)
          · rw [if_neg hab2] at h1
            exact absurd h1 (by simp)

/-- `sort_key` (source lines 161-166):
`("sct2" not in x[1], "concept" not in x[0], x[0])`. -/
def sort_key (x : LoadPlanEntry) : Bool × Bool × List Char :=
  (!containsSub "sct2".data x.2.1, !containsSub "concept".data x.1, x.1)

/-- Lexicographic order on the composite key, with `false < true` for the
boolean components (Python tuple/bool comparison). -/
def keyLe (a b : Bool × Bool × List Char) : Bool :=
  if a.1 = b.1 then
    (if a.2.1 = b.2.1 then charListLe a.2.2 b.2.2 else !a.2.1)
  else !a.1

def entryLe (x y : LoadPlanEntry) : Bool := keyLe (sort_key x) (sort_key y)

/-- `normalized_table_names.sort(key=sort_key)`: Python's `list.sort` is a
stable ascending sort by the key; any stable sort by the same total preorder
yields the same list, so it is modelled with (stable, structurally recursive)
insertion sort. -/
def sortPlan (l : List LoadPlanEntry) : List LoadPlanEntry :=
  List.insertionSort (fun x y => entryLe x y = true) l

theorem keyLe_trans : ∀ a b c, keyLe a b = true → keyLe b c = true →
    keyLe a c = true := by
  rintro ⟨a1, a2, a3⟩ ⟨b1, b2, b3⟩ ⟨c1, c2, c3⟩ h1 h2
  simp only [keyLe] at h1 h2 ⊢
  cases a1 <;> cases b1 <;> cases c1 <;> cases a2 <;> cases b2 <;> cases c2 <;>
    simp_all <;> exact charListLe_trans _ _ _ h1 h2

theorem keyLe_total : ∀ a b, (keyLe a b || keyLe b a) = true := by
  rintro ⟨a1, a2, a3⟩ ⟨b1, b2, b3⟩
  simp only [keyLe]
  cases a1 <;> cases b1 <;> cases a2 <;> cases b2 <;> simp_all <;>
    exact (Bool.or_eq_true _ _).mp (charListLe_total _ _)

theorem entryLe_trans : ∀ a b c : LoadPlanEntry, entryLe a b = true →
    entryLe b c = true → entryLe a c = true :=
  fun _ _ _ h1 h2 => keyLe_trans _ _ _ h1 h2

theorem entryLe_total : ∀ a b : LoadPlanEntry, (entryLe a b || entryLe b a) = true :=
  fun _ _ => keyLe_total _ _

/-- A terminology-directory concept entry: the containing directory contains
the terminology marker `"sct2"` and the table name contains `"concept"`. -/
abbrev isTerminologyConceptEntry (x : LoadPlanEntry) : Prop :=
  containsSub "sct2".data x.2.1 = true ∧ containsSub "concept".data x.1 = true

/-- A reference-set entry: the containing directory does not contain the
terminology marker `"sct2"`. -/
abbrev isRefsetDirEntry (x : LoadPlanEntry) : Prop :=
  containsSub "sct2".data x.2.1 = false

theorem entryLe_refset_concept_false {x y : LoadPlanEntry}
    (hx : isRefsetDirEntry x) (hy : isTerminologyConceptEntry y) :
    entryLe x y = false := by
  simp only [entryLe, keyLe, sort_key]
  rw [hx, hy.1]
  simp

/-! ## The load orchestrator (source lines 172-282)

The orchestrator is modelled as a pure function from an environment of
collaborator results (filesystem predicates, per-release-type load plans as
produced by `get_table_details`, and the outcome of each SQL script) to the
ordered list of observable events it performs.  `quit()` raises `SystemExit`,
which is modelled by cutting the trace short; the `finally:` block's
`duckdb_client.close()` still runs on that path. -/

/-- Observable events of one run, in program order. -/
inductive Event where
  | logConfigError
  | printUsage
  | logZipMissing
  | openDB
  | warnNoFiles (rt : ReleaseType)
  | execDDL (rt : ReleaseType)
  | importFile (table dir file : String)
  | logSqlSuccess (name : String)
  | logSqlError (name : String)
  | logViolationCount (rt : ReleaseType) (n : Nat)
  | startUI
  | promptUser
  | closeDB
deriving DecidableEq, Repr

/-- Collaborator results: the package path and filesystem answers, the load
plan per release type (the filesystem walk is an external collaborator), and
per SQL script name either the returned rows or `none` when opening or
executing the script raised. -/
structure SystemEnv where
  packagePath : String
  isDir : String → Bool
  isFile : String → Bool
  plan : ReleaseType → List (String × String × String)
  sqlResult : String → Option (List String)

/-- Lowercased release-type label (`release_type.value.lower()`). -/
def ReleaseType.valueLower (rt : ReleaseType) : String :=
  ⟨lowerAll rt.value.data⟩

/-- The DDL script name (source line 200). -/
def ddlSqlName (rt : ReleaseType) : String :=
  "create_" ++ rt.valueLower ++ "_tables.sql"

/-- The validation script name (source line 234). -/
def validateSqlName (rt : ReleaseType) : String :=
  "validate_" ++ rt.valueLower ++ "_targetcomponentid.sql"

/-- `DuckDBClient.execute_sql_file` (source lines 189-197): on success log
info and return the rows; on any exception log the error and return `None`
(the function body ends without a `return`). -/
def execute_sql_file (env : SystemEnv) (name : String) :
    List Event × Option (List String) :=
  match env.sqlResult name with
  | some rows => ([.logSqlSuccess name], some rows)
  | none => ([.logSqlError name], none)

/-- `validate_targetcomponentid` (source lines 233-242): run the validation
script; `if result and len(result):` log the violation count and `quit()`.
The boolean is the quit flag. -/
def validate_targetcomponentid (env : SystemEnv) (rt : ReleaseType) :
    List Event × Bool :=
  let r := execute_sql_file env (validateSqlName rt)
  match r.2 with
  | some rows =>
      if rows.length ≠ 0 then
        (r.1 ++ [.logViolationCount rt rows.length], true)
      else (r.1, false)
  | none => (r.1, false)

/-- One iteration of the release-type loop (source lines 266-275): empty plan
warns and skips; otherwise DDL, imports, mark imported, validate. -/
def processRelease (env : SystemEnv) (rt : ReleaseType) (imported : Bool) :
    List Event × Bool × Bool :=
  match env.plan rt with
  | [] => ([.warnNoFiles rt], imported, false)
  | entries =>
      let ddlEv := Event.execDDL rt :: (execute_sql_file env (ddlSqlName rt)).1
      let impEv := entries.map fun x => Event.importFile x.1 x.2.1 x.2.2
      let v := validate_targetcomponentid env rt
      (ddlEv ++ impEv ++ v.1, true, v.2)

/-- The release-type loop; stops early when `quit()` fires.  Returns the
events, the final `file_imported` flag and whether the run was aborted. -/
def runReleases (env : SystemEnv) : List ReleaseType → Bool → List Event × Bool × Bool
  | [], imported => ([], imported, false)
  | rt :: rest, imported =>
      let r := processRelease env rt imported
      if r.2.2 then (r.1, r.2.1, true)
      else
        let r2 := runReleases env rest r.2.1
        (r.1 ++ r2.1, r2.2.1, r2.2.2)

/-- Does `validate_package_path` (source lines 172-176) raise?  The condition
is `not (package_path or os.path.isdir(package_path) or
os.path.isfile(package_path))`; the empty string is falsy. -/
def packagePathRejected (env : SystemEnv) : Bool :=
  !(env.packagePath ≠ "" || env.isDir env.packagePath || env.isFile env.packagePath)

/-- Python's `str.endswith(suffix)`. -/
def strEndsWith (s suffix : String) : Bool := suffix.data.isSuffixOf s.data

/-- `__main__` (source lines 245-282): path validation, the zip existence
check, then the client is opened and the loop runs under `try/finally`, the
UI is started only when something was imported and no `quit()` fired, and
the connection is closed on every path after it was opened. -/
def runMain (env : SystemEnv) : List Event :=
  if packagePathRejected env then [.logConfigError, .printUsage]
  else if strEndsWith env.packagePath ".zip" && !env.isFile env.packagePath then
    [.logZipMissing]
  else
    let r := runReleases env [ReleaseType.full, ReleaseType.snapshot] false
    [Event.openDB] ++ r.1 ++
      (if r.2.2 then [] else if r.2.1 then [.startUI, .promptUser] else []) ++
      [.closeDB]

/-- Whether release type `rt` triggers the fatal validation exit: a non-empty
plan whose validation query successfully returns a non-empty row list. -/
def quitsAt (env : SystemEnv) (rt : ReleaseType) : Bool :=
  !(env.plan rt).isEmpty &&
    (match env.sqlResult (validateSqlName rt) with
     | some rows => !rows.isEmpty
     | none => false)

theorem process_quit_eq (env : SystemEnv) (rt : ReleaseType) (imp : Bool) :
    (processRelease env rt imp).2.2 = quitsAt env rt := by
  rw [processRelease, quitsAt]
  cases hp : env.plan rt with
  | nil => simp
  | cons a l =>
    simp only [List.isEmpty_cons, Bool.not_false, Bool.true_and]
    rw [validate_targetcomponentid, execute_sql_file]
    cases hq : env.sqlResult (validateSqlName rt) with
    | some rows => cases rows <;> simp
    | none => simp

theorem execute_sql_file_fst (env : SystemEnv) (name : String) :
    (execute_sql_file env name).1 = [.logSqlSuccess name] ∨
    (execute_sql_file env name).1 = [.logSqlError name] := by
  rw [execute_sql_file]
  cases env.sqlResult name with
  | none => exact Or.inr rfl
  | some rows => exact Or.inl rfl

theorem validate_fst (env : SystemEnv) (rt : ReleaseType) :
    (validate_targetcomponentid env rt).1 = [.logSqlSuccess (validateSqlName rt)] ∨
    (validate_targetcomponentid env rt).1 = [.logSqlError (validateSqlName rt)] ∨
    ∃ n, (validate_targetcomponentid env rt).1 =
      [.logSqlSuccess (validateSqlName rt), .logViolationCount rt n] := by
  rw [validate_targetcomponentid, execute_sql_file]
  cases env.sqlResult (validateSqlName rt) with
  | none => exact Or.inr (Or.inl rfl)
  | some rows =>
    dsimp only
    by_cases hr : rows.length ≠ 0
    · refine Or.inr (Or.inr ⟨rows.length, ?_⟩)
      rw [if_pos hr]
      rfl
    · refine Or.inl ?_
      rw [if_neg hr]

theorem processRelease_nil (env : SystemEnv) (rt : ReleaseType) (imp : Bool)
    (hplan : env.plan rt = []) :
    processRelease env rt imp = ([.warnNoFiles rt], imp, false) := by
  rw [processRelease, hplan]

theorem processRelease_cons (env : SystemEnv) (rt : ReleaseType) (imp : Bool)
    (hplan : env.plan rt ≠ []) :
    processRelease env rt imp =
      (Event.execDDL rt :: (execute_sql_file env (ddlSqlName rt)).1 ++
        (env.plan rt).map (fun x => Event.importFile x.1 x.2.1 x.2.2) ++
        (validate_targetcomponentid env rt).1,
        true, (validate_targetcomponentid env rt).2) := by
  rw [processRelease]
  cases hp : env.plan rt with
  | nil => exact absurd hp hplan
  | cons a l => rfl

/-- Shape of the events one loop iteration can emit. -/
theorem process_events (env : SystemEnv) (rt : ReleaseType) (imp : Bool) {ev : Event}
    (hmem : ev ∈ (processRelease env rt imp).1) :
    ev = .warnNoFiles rt ∨ ev = .execDDL rt ∨
    (∃ nm, ev = .logSqlSuccess nm) ∨ (∃ nm, ev = .logSqlError nm) ∨
    (∃ t d f, ev = .importFile t d f) ∨ ∃ n, ev = .logViolationCount rt n := by
  by_cases hp : env.plan rt = []
  · rw [processRelease_nil env rt imp hp] at hmem
    exact Or.inl (List.mem_singleton.mp hmem)
  · rw [processRelease_cons env rt imp hp] at hmem
    simp only [List.mem_cons, List.mem_append, List.mem_map] at hmem
    rcases hmem with ((h | h) | ⟨x, -, h⟩) | h
    · exact Or.inr (Or.inl h)
    · rcases execute_sql_file_fst env (ddlSqlName rt) with he | he <;> rw [he] at h <;>
        rcases List.mem_singleton.mp h with rfl
      · exact Or.inr (Or.inr (Or.inl ⟨_, rfl⟩))
      · exact Or.inr (Or.inr (Or.inr (Or.inl ⟨_, rfl⟩)))
    · subst h
      exact Or.inr (Or.inr (Or.inr (Or.inr (Or.inl ⟨_, _, _, rfl⟩))))
    · rcases validate_fst env rt with he | he | ⟨n, he⟩ <;> rw [he] at h
      · rcases List.mem_singleton.mp h with rfl
        exact Or.inr (Or.inr (Or.inl ⟨_, rfl⟩))
      · rcases List.mem_singleton.mp h with rfl
        exact Or.inr (Or.inr (Or.inr (Or.inl ⟨_, rfl⟩)))
      · rcases List.mem_cons.mp h with rfl | h2
        · exact Or.inr (Or.inr (Or.inl ⟨_, rfl⟩))
        · rcases List.mem_singleton.mp h2 with rfl
          exact Or.inr (Or.inr (Or.inr (Or.inr (Or.inr ⟨n, rfl⟩))))

theorem startUI_not_in_process (env : SystemEnv) (rt : ReleaseType) (imp : Bool) :
    Event.startUI ∉ (processRelease env rt imp).1 := by
  intro hmem
  rcases process_events env rt imp hmem with h | h | ⟨nm, h⟩ | ⟨nm, h⟩ |
    ⟨t, d, f, h⟩ | ⟨n, h⟩ <;> exact Event.noConfusion h

theorem rt_events_not_in_process (env : SystemEnv) (rt : ReleaseType) (imp : Bool)
    (rt' : ReleaseType) (hne : rt' ≠ rt) :
    Event.execDDL rt' ∉ (processRelease env rt imp).1 ∧
    Event.warnNoFiles rt' ∉ (processRelease env rt imp).1 := by
  constructor <;> intro hmem <;>
    rcases process_events env rt imp hmem with h | h | ⟨nm, h⟩ | ⟨nm, h⟩ |
      ⟨t, d, f, h⟩ | ⟨n, h⟩ <;>
    first
      | exact Event.noConfusion h
      | (injection h with h2; exact hne h2)

theorem validate_violation (env : SystemEnv) (rt : ReleaseType)
    (rows : List String)
    (hrows : env.sqlResult (validateSqlName rt) = some rows) (hne : rows ≠ []) :
    validate_targetcomponentid env rt =
      ([.logSqlSuccess (validateSqlName rt), .logViolationCount rt rows.length],
        true) := by
  have hlen : rows.length ≠ 0 := by
    cases rows with
    | nil => exact absurd rfl hne
    | cons b bs => simp
  rw [validate_targetcomponentid, execute_sql_file, hrows]
  dsimp only
  rw [if_pos hlen]
  rfl

theorem violation_in_process (env : SystemEnv) (rt : ReleaseType) (imp : Bool)
    (rows : List String) (hplan : env.plan rt ≠ [])
    (hrows : env.sqlResult (validateSqlName rt) = some rows) (hne : rows ≠ []) :
    Event.logViolationCount rt rows.length ∈ (processRelease env rt imp).1 ∧
    (processRelease env rt imp).2.2 = true := by
  rw [processRelease_cons env rt imp hplan, validate_violation env rt rows hrows hne]
  constructor
  · simp
  · rfl

instance : IsTotal LoadPlanEntry (fun x y => entryLe x y = true) :=
  ⟨fun a b => (Bool.or_eq_true _ _).mp (entryLe_total a b)⟩

instance : IsTrans LoadPlanEntry (fun x y => entryLe x y = true) :=
  ⟨fun a b c => entryLe_trans a b c⟩

/-! ## The claims -/

/-- C1 (code evaluation at the failing input): the spec's round-trip example
says release type Snapshot accepts `sct2_Concept_Snapshot_INT_20240101.txt`
and produces the table name `concept_s`, but the code's country-namespace
regex `(?:(INT|[A-Z]{2})\d{7})` requires seven digits immediately after
`INT`, so `re.match(filter_regex, ...)` rejects this filename: the classifier
returns no match and the scanner derives no table name at all. -/
theorem claim_c1_code_rejects_int_example :
    classify .snapshot "sct2_Concept_Snapshot_INT_20240101.txt".data = none ∧
    get_table_name .snapshot "sct2_Concept_Snapshot_INT_20240101.txt".data = none := by
  exact ⟨rfl, rfl⟩

/-- C2: for every release type and every filename, the classifier accepts
exactly the strings of the §4.1 grammar (with the country-namespace clause
read as written in the code: `INT` or two uppercase letters, immediately
followed by seven digits), and on acceptance the returned `match.group(1)`,
`match.group(2)`, `match.group(3)` are the captures of a grammar
decomposition of the filename.  Rejection cannot raise: the embedded matcher
is a total function that returns `none` on every non-matching filename. -/
theorem claim_c2_classifier_iff_grammar (rt : ReleaseType) (s : List Char) :
    ((classify rt s).isSome = true ↔ Matches (specGrammar rt) s) ∧
    (∀ g1 g2 g3, classify rt s = some (g1, g2, g3) →
      ∃ e, MemG (specGrammar rt) s [] e ∧
        g1 = group e 1 ∧ g2 = group e 2 ∧ g3 = group e 3) := by
  rw [specGrammar_eq_filterRE]
  constructor
  · have hiff : (classify rt s).isSome = (pymatch rt s).isSome := by
      rw [classify]
      cases pymatch rt s <;> rfl
    rw [hiff]
    exact pymatch_isSome_iff rt s
  · intro g1 g2 g3 h
    rw [classify] at h
    cases hpm : pymatch rt s with
    | none =>
      rw [hpm] at h
      exact absurd h (by simp)
    | some e =>
      rw [hpm] at h
      simp only [Option.map_some'] at h
      injection h with h3
      refine ⟨e, pymatch_some_MemG hpm, ?_, ?_, ?_⟩
      · exact (congrArg Prod.fst h3).symm
      · exact (congrArg (fun p => p.2.1) h3).symm
      · exact (congrArg (fun p => p.2.2) h3).symm

theorem claim_c2_classifier_iff_grammar_witness :
    ∃ e, MemG (specGrammar .snapshot)
        "sct2_Concept_Snapshot_INT1234567_20240101.txt".data [] e ∧
      some "sct".data = group e 1 ∧ some "Concept".data = group e 2 ∧
      (none : Option (List Char)) = group e 3 :=
  (claim_c2_classifier_iff_grammar .snapshot
    "sct2_Concept_Snapshot_INT1234567_20240101.txt".data).2 _ _ _ rfl

/-- C3 counterexample: `der2_Refset_Snapshot_INT1234567_20240101.txt` is
accepted as a derivative file with no summary capture, and base extraction
does not produce the claimed fallback `Refsetrefset_s` (content type plus
`refset_` plus short code); it produces nothing. -/
theorem claim_c3_counterexample :
    classify .snapshot "der2_Refset_Snapshot_INT1234567_20240101.txt".data =
      some (some "der".data, some "Refset".data, none) ∧
    ¬ (baseExtraction .snapshot "der2_Refset_Snapshot_INT1234567_20240101.txt".data =
        some "Refsetrefset_s".data) := by
  refine ⟨rfl, fun h => ?_⟩
  exact Option.noConfusion
    (show (none : Option (List Char)) = some "Refsetrefset_s".data from h)

/-- C3 amended: for every accepted filename classified as a derivative file
(`der` file-kind core) whose summary capture is absent, the base-extraction
step does not fall back to the content-type token: `extract_strategy`
concatenates `None` (a `TypeError` in Python, modelled as `none`), so no base
name is produced. -/
theorem claim_c3_amended (rt : ReleaseType) (s : List Char) (g2 : Option (List Char))
    (h : classify rt s = some (some "der".data, g2, none)) :
    baseExtraction rt s = none := by
  rw [classify] at h
  cases hpm : pymatch rt s with
  | none =>
    rw [hpm] at h
    exact absurd h (by simp)
  | some e =>
    rw [hpm] at h
    simp only [Option.map_some'] at h
    injection h with h3
    have h1 : group e 1 = some "der".data := congrArg Prod.fst h3
    have hg3 : group e 3 = none := congrArg (fun p => p.2.2) h3
    rw [baseExtraction, hpm]
    dsimp only
    rw [extract_strategy, if_neg, hg3]
    · rfl
    · rintro ⟨hsct, -⟩
      rw [h1] at hsct
      injection hsct with hsct
      exact absurd hsct (by decide)

theorem claim_c3_amended_witness :
    baseExtraction .snapshot "der2_Refset_Snapshot_INT1234567_20240101.txt".data =
      none :=
  claim_c3_amended .snapshot "der2_Refset_Snapshot_INT1234567_20240101.txt".data
    (some "Refset".data) rfl

/-- C4 counterexample: the spec's filename
`der2_Refset_RefsetDescriptorSnapshot_INT_20240101.txt` is not mapped to
`refsetdescriptor` — it is rejected outright (no seven digits after `INT`),
so the scanner produces no table name for it. -/
theorem claim_c4_counterexample :
    get_table_name .snapshot
        "der2_Refset_RefsetDescriptorSnapshot_INT_20240101.txt".data = none ∧
    ¬ (get_table_name .snapshot
        "der2_Refset_RefsetDescriptorSnapshot_INT_20240101.txt".data =
      some "refsetdescriptor".data) := by
  refine ⟨rfl, fun h => ?_⟩
  exact Option.noConfusion
    (show (none : Option (List Char)) = some "refsetdescriptor".data from h)

/-- C4 amended: for the accepted variant (a code-valid country namespace
`INT1234567`), the base is `RefsetDescriptorrefset_s` and rule 2 replaces it
by `RefsetDescriptor_s` — it substitutes `_s` for `refset_s` rather than
stripping the release-short-code suffix — so the final canonical table name
is `refsetdescriptor_s`, not the bare `refsetdescriptor`. -/
theorem claim_c4_amended :
    baseExtraction .snapshot
        "der2_Refset_RefsetDescriptorSnapshot_INT1234567_20240101.txt".data =
      some "RefsetDescriptorrefset_s".data ∧
    applyRules .snapshot "RefsetDescriptorrefset_s".data =
      "RefsetDescriptor_s".data ∧
    get_table_name .snapshot
        "der2_Refset_RefsetDescriptorSnapshot_INT1234567_20240101.txt".data =
      some "refsetdescriptor_s".data := ⟨rfl, rfl, rfl⟩

/-- C5 counterexample: the spec's filename
`der2_Refset_SimpleSnapshot_INT_20240101.txt` is not mapped to `simple_s` —
it is rejected outright (no seven digits after `INT`). -/
theorem claim_c5_counterexample :
    get_table_name .snapshot "der2_Refset_SimpleSnapshot_INT_20240101.txt".data =
      none ∧
    ¬ (get_table_name .snapshot "der2_Refset_SimpleSnapshot_INT_20240101.txt".data =
        some "simple_s".data) := by
  refine ⟨rfl, fun h => ?_⟩
  exact Option.noConfusion
    (show (none : Option (List Char)) = some "simple_s".data from h)

/-- C5 amended: for the accepted variant (country namespace `INT1234567`),
the base is `Simplerefset_s`; rule 3's pattern `(Simple)(Refset)` is
case-sensitive and does not match the lowercase `refset` that base extraction
produced, so no contraction happens and the final canonical table name is
`simplerefset_s`, not `simple_s`. -/
theorem claim_c5_amended :
    baseExtraction .snapshot
        "der2_Refset_SimpleSnapshot_INT1234567_20240101.txt".data =
      some "Simplerefset_s".data ∧
    applyRules .snapshot "Simplerefset_s".data = "Simplerefset_s".data ∧
    get_table_name .snapshot
        "der2_Refset_SimpleSnapshot_INT1234567_20240101.txt".data =
      some "simplerefset_s".data := ⟨rfl, rfl, rfl⟩

/-- C9: the Normalizer's full rewrite pipeline is idempotent on its own
output: whenever the scanner maps a filename to a canonical table name `n`,
applying the full pipeline (base extraction, rules 2-8, lowercasing) to `n`
yields `n` again.  `n` consists of word characters only (so the anchored
filter regex, which demands a literal `.txt`, cannot match) and contains no
uppercase letter (so none of rules 2-8, whose patterns each contain an
uppercase letter, can fire, and lowercasing is the identity). -/
theorem claim_c9_normalizer_idempotent (rt : ReleaseType) (f n : List Char)
    (h : get_table_name rt f = some n) : normalizeOnce rt n = some n := by
  obtain ⟨hword, hupper⟩ := get_table_name_chars h
  exact normalizeOnce_fixed hword hupper

theorem claim_c9_normalizer_idempotent_witness :
    get_table_name .snapshot "sct2_Concept_Snapshot_INT1234567_20240101.txt".data =
      some "concept_s".data ∧
    normalizeOnce .snapshot "concept_s".data = some "concept_s".data :=
  ⟨rfl, claim_c9_normalizer_idempotent .snapshot
    "sct2_Concept_Snapshot_INT1234567_20240101.txt".data "concept_s".data rfl⟩

/-- C6: the orderer sorts every load plan by the ascending composite key
(directory does not contain the terminology marker `"sct2"`, table name does
not contain `"concept"`, table name lexicographically): the output is a
permutation of the input that is pairwise ordered by the key; consequently,
whenever the sorted plan contains a terminology-directory entry whose table
name contains `concept` at position `i` and a reference-set entry (directory
without the marker) at position `j`, then `i < j`. -/
theorem claim_c6_orderer_sorts_concept_first (l : List LoadPlanEntry) :
    (sortPlan l).Perm l ∧
    List.Pairwise (fun a b => entryLe a b = true) (sortPlan l) ∧
    (∀ (i j : Nat) (hi : i < (sortPlan l).length) (hj : j < (sortPlan l).length),
      isTerminologyConceptEntry ((sortPlan l).get ⟨i, hi⟩) →
      isRefsetDirEntry ((sortPlan l).get ⟨j, hj⟩) → i < j) := by
  have hperm : (sortPlan l).Perm l := List.perm_insertionSort _ l
  have hsorted : List.Pairwise (fun a b => entryLe a b = true) (sortPlan l) :=
    List.sorted_insertionSort _ l
  refine ⟨hperm, hsorted, ?_⟩
  intro i j hi hj hti hrj
  rcases Nat.lt_trichotomy i j with h | h | h
  · exact h
  · subst h
    exact absurd (hti.1.symm.trans hrj) (by decide)
  · exfalso
    have hpw := List.pairwise_iff_getElem.mp hsorted j i hj hi h
    have hji : entryLe ((sortPlan l).get ⟨j, hj⟩) ((sortPlan l).get ⟨i, hi⟩) = true := by
      rw [List.get_eq_getElem, List.get_eq_getElem]
      exact hpw
    rw [entryLe_refset_concept_false hrj hti] at hji
    exact absurd hji (by decide)

theorem claim_c6_orderer_sorts_concept_first_witness :
    0 < 1 ∧
    isTerminologyConceptEntry
      ((sortPlan [("langrefset_f".data, "pkg/Refset".data, "f2.txt".data),
        ("concept_f".data, "pkg/sct2dir".data, "f1.txt".data)]).get ⟨0, by decide⟩) := by
  constructor
  · exact claim_c6_orderer_sorts_concept_first
      [("langrefset_f".data, "pkg/Refset".data, "f2.txt".data),
        ("concept_f".data, "pkg/sct2dir".data, "f1.txt".data)] |>.2.2 0 1
      (by decide) (by decide) (by decide) (by decide)
  · decide

theorem runMain_eq_of_prechecks (env : SystemEnv)
    (hpre : packagePathRejected env = false)
    (hzip : (strEndsWith env.packagePath ".zip" && !env.isFile env.packagePath) = false) :
    runMain env =
      [Event.openDB] ++ (runReleases env [ReleaseType.full, ReleaseType.snapshot] false).1 ++
      (if (runReleases env [ReleaseType.full, ReleaseType.snapshot] false).2.2 then []
       else if (runReleases env [ReleaseType.full, ReleaseType.snapshot] false).2.1 then
         [Event.startUI, Event.promptUser] else []) ++ [Event.closeDB] := by
  rw [runMain, if_neg (by simp [hpre]), if_neg (by simp [hzip])]

theorem runReleases_full_quits (env : SystemEnv)
    (hq : (processRelease env .full false).2.2 = true) :
    runReleases env [ReleaseType.full, ReleaseType.snapshot] false =
      ((processRelease env .full false).1,
        (processRelease env .full false).2.1, true) := by
  rw [runReleases]
  rw [hq]
  rfl

theorem runReleases_snapshot_quits (env : SystemEnv)
    (hq1 : (processRelease env .full false).2.2 = false)
    (hq2 : (processRelease env .snapshot
        (processRelease env .full false).2.1).2.2 = true) :
    runReleases env [ReleaseType.full, ReleaseType.snapshot] false =
      ((processRelease env .full false).1 ++
        (processRelease env .snapshot (processRelease env .full false).2.1).1,
        (processRelease env .snapshot (processRelease env .full false).2.1).2.1,
        true) := by
  rw [runReleases]
  rw [hq1]
  rw [runReleases]
  rw [hq2]
  rfl

theorem runMain_quit_trace (env : SystemEnv)
    (hpre : packagePathRejected env = false)
    (hzip : (strEndsWith env.packagePath ".zip" && !env.isFile env.packagePath) = false)
    (hq : (runReleases env [ReleaseType.full, ReleaseType.snapshot] false).2.2 = true) :
    runMain env = [Event.openDB] ++
      (runReleases env [ReleaseType.full, ReleaseType.snapshot] false).1 ++
      [Event.closeDB] := by
  rw [runMain_eq_of_prechecks env hpre hzip, hq]
  simp

/-- C7: when the post-load validation query of a processed release type
(`Full` first, then `Snapshot`; a non-empty plan, a validation query that
successfully returned one or more rows, and no earlier release type already
aborted) returns rows, the orchestrator logs the violation count and the
`quit()` cuts the run short: the UI-start step is never reached, no later
release type is processed (no DDL and no warning for it appears), and the
`finally:` block still closes the database session. -/
theorem claim_c7_fatal_validation_terminates (env : SystemEnv)
    (hpre : packagePathRejected env = false)
    (hzip : (strEndsWith env.packagePath ".zip" && !env.isFile env.packagePath) = false)
    (rt : ReleaseType) (rows : List String)
    (hrt : rt = .full ∨ rt = .snapshot)
    (hplan : env.plan rt ≠ [])
    (hrows : env.sqlResult (validateSqlName rt) = some rows)
    (hne : rows ≠ [])
    (hfirst : rt = .snapshot → quitsAt env .full = false) :
    Event.logViolationCount rt rows.length ∈ runMain env ∧
    Event.startUI ∉ runMain env ∧
    Event.closeDB ∈ runMain env ∧
    (rt = .full →
      Event.execDDL .snapshot ∉ runMain env ∧
      Event.warnNoFiles .snapshot ∉ runMain env) := by
  rcases hrt with rfl | rfl
  · obtain ⟨hmem, hq⟩ := violation_in_process env .full false rows hplan hrows hne
    have hq2 : (runReleases env [ReleaseType.full, ReleaseType.snapshot] false).2.2
        = true := by
      rw [runReleases_full_quits env hq]
    have htr : runMain env = [Event.openDB] ++ (processRelease env .full false).1 ++
        [Event.closeDB] := by
      rw [runMain_quit_trace env hpre hzip hq2, runReleases_full_quits env hq]
    rw [htr]
    refine ⟨?_, ?_, ?_, fun _ => ⟨?_, ?_⟩⟩
    · simp only [List.mem_append]
      exact Or.inl (Or.inr hmem)
    · intro hmm
      simp only [List.mem_append, List.mem_singleton] at hmm
      rcases hmm with (h | h) | h
      · exact Event.noConfusion h
      · exact startUI_not_in_process env .full false h
      · exact Event.noConfusion h
    · simp
    · intro hmm
      simp only [List.mem_append, List.mem_singleton] at hmm
      rcases hmm with (h | h) | h
      · exact Event.noConfusion h
      · exact (rt_events_not_in_process env .full false .snapshot (by decide)).1 h
      · exact Event.noConfusion h
    · intro hmm
      simp only [List.mem_append, List.mem_singleton] at hmm
      rcases hmm with (h | h) | h
      · exact Event.noConfusion h
      · exact (rt_events_not_in_process env .full false .snapshot (by decide)).2 h
      · exact Event.noConfusion h
  · have hq1 : (processRelease env .full false).2.2 = false := by
      rw [process_quit_eq]
      exact hfirst rfl
    obtain ⟨hmem, hq⟩ := violation_in_process env .snapshot
      (processRelease env .full false).2.1 rows hplan hrows hne
    have hq2 : (runReleases env [ReleaseType.full, ReleaseType.snapshot] false).2.2
        = true := by
      rw [runReleases_snapshot_quits env hq1 hq]
    have htr : runMain env = [Event.openDB] ++
        ((processRelease env .full false).1 ++
          (processRelease env .snapshot (processRelease env .full false).2.1).1) ++
        [Event.closeDB] := by
      rw [runMain_quit_trace env hpre hzip hq2, runReleases_snapshot_quits env hq1 hq]
    rw [htr]
    refine ⟨?_, ?_, ?_, fun hh => absurd hh (by decide)⟩
    · simp only [List.mem_append]
      exact Or.inl (Or.inr (Or.inr hmem))
    · intro hmm
      simp only [List.mem_append, List.mem_singleton] at hmm
      rcases hmm with (h | h | h) | h
      · exact Event.noConfusion h
      · exact startUI_not_in_process env .full false h
      · exact startUI_not_in_process env .snapshot _ h
      · exact Event.noConfusion h
    · simp

/-- A concrete environment in which the `Full` validation query returns one
violating row. -/
def violatingEnv : SystemEnv where
  packagePath := "pkg"
  isDir := fun _ => true
  isFile := fun _ => false
  plan := fun rt =>
    match rt with
    | .full => [("concept_f", "pkg/Full/x", "sct2_Concept_Full_INT1234567_20240101.txt")]
    | _ => []
  sqlResult := fun _ => some ["bad-row"]

theorem claim_c7_fatal_validation_terminates_witness :
    Event.logViolationCount .full 1 ∈ runMain violatingEnv ∧
    Event.startUI ∉ runMain violatingEnv ∧
    Event.closeDB ∈ runMain violatingEnv ∧
    (ReleaseType.full = .full →
      Event.execDDL .snapshot ∉ runMain violatingEnv ∧
      Event.warnNoFiles .snapshot ∉ runMain violatingEnv) :=
  claim_c7_fatal_validation_terminates violatingEnv (by decide) (by decide)
    .full ["bad-row"] (Or.inl rfl) (by decide) rfl (by decide)
    (fun h => absurd h (by decide))

/-- C8 (code evaluation at the failing input): the spec says every invalid or
missing package path is reported with usage help and the program terminates
before any database resource is opened; but `validate_package_path`'s
condition `not (package_path or os.path.isdir(...) or os.path.isfile(...))`
is satisfied only by the empty path, so a non-empty nonexistent path such as
`/no/such/dir` (not a directory, not a file, not a zip) passes validation
silently and the program proceeds to open the database session. -/
def invalidPathEnv : SystemEnv where
  packagePath := "/no/such/dir"
  isDir := fun _ => false
  isFile := fun _ => false
  plan := fun _ => []
  sqlResult := fun _ => none

theorem claim_c8_invalid_path_opens_db :
    (invalidPathEnv.packagePath ≠ "" ∧
      invalidPathEnv.isDir invalidPathEnv.packagePath = false ∧
      invalidPathEnv.isFile invalidPathEnv.packagePath = false) ∧
    packagePathRejected invalidPathEnv = false ∧
    Event.openDB ∈ runMain invalidPathEnv ∧
    Event.logConfigError ∉ runMain invalidPathEnv ∧
    Event.printUsage ∉ runMain invalidPathEnv := by decide

/-- C10: when the validation script cannot be opened or executed,
`execute_sql_file` logs the error and returns `None`, and
`validate_targetcomponentid` treats that `None` exactly like an empty result
(no fatal exit); the fatal `quit()` fires exactly when a successfully
executed validation query returns a non-empty row list. -/
theorem claim_c10_failed_validation_not_fatal (env : SystemEnv) (rt : ReleaseType) :
    (env.sqlResult (validateSqlName rt) = none →
      execute_sql_file env (validateSqlName rt) =
        ([.logSqlError (validateSqlName rt)], none) ∧
      validate_targetcomponentid env rt =
        ([.logSqlError (validateSqlName rt)], false)) ∧
    ((validate_targetcomponentid env rt).2 = true ↔
      ∃ rows, env.sqlResult (validateSqlName rt) = some rows ∧ rows ≠ []) := by
  constructor
  · intro hn
    constructor
    · rw [execute_sql_file, hn]
    · rw [validate_targetcomponentid, execute_sql_file, hn]
  · constructor
    · intro h
      rw [validate_targetcomponentid, execute_sql_file] at h
      cases hq : env.sqlResult (validateSqlName rt) with
      | none =>
        rw [hq] at h
        exact absurd h (by simp)
      | some rows =>
        rw [hq] at h
        dsimp only at h
        by_cases hr : rows.length ≠ 0
        · refine ⟨rows, rfl, fun hnil => ?_⟩
          subst hnil
          simp at hr
        · rw [if_neg hr] at h
          exact absurd h (by simp)
    · rintro ⟨rows, hq, hne⟩
      rw [validate_violation env rt rows hq hne]

/-- A concrete environment in which every SQL script fails to execute. -/
def failingSqlEnv : SystemEnv where
  packagePath := "pkg"
  isDir := fun _ => true
  isFile := fun _ => false
  plan := fun _ => []
  sqlResult := fun _ => none

theorem claim_c10_failed_validation_not_fatal_witness :
    validate_targetcomponentid failingSqlEnv .full =
      ([.logSqlError (validateSqlName .full)], false) :=
  ((claim_c10_failed_validation_not_fatal failingSqlEnv .full).1 rfl).2
